import Mathlib

/-!
Shallow embedding of src/rkgrep.c (Rabin-Karp substring matching).

Byte strings are modelled as lists of byte values (Nat, each < 256); a
null-terminated C string additionally has no zero bytes, captured by the
predicate CStr below.  C chars are signed on the target platform, so a
byte b is read as the integer b when b < 128 and b - 256 otherwise
(byteToChar).  Reading index i of a string of length n yields the
terminator 0 at i = n and is an out-of-bounds access for i > n; functions
whose C counterparts can perform out-of-bounds accesses or can fall off
the end of the function without a return statement are Option-valued,
with none marking an execution that has undefined behaviour.  The C
operator % on long long is truncated division remainder, Int.tmod.
Loop bounds computed in size_t arithmetic are taken modulo 2^64.
-/

/-- The constant PRIME from rkgrep.c. -/
def PRIME : Int := 961748941

/-- madd from rkgrep.c: (a + b) % PRIME with C (truncated) remainder. -/
def madd (a b : Int) : Int := (a + b).tmod PRIME

/-- msub from rkgrep.c: (a > b) ? (a - b) : (a + PRIME - b). -/
def msub (a b : Int) : Int := if a > b then a - b else a + PRIME - b

/-- mmul from rkgrep.c: (a * b) % PRIME with C (truncated) remainder. -/
def mmul (a b : Int) : Int := (a * b).tmod PRIME

/-- The value of a byte when stored in a (signed) C char. -/
def byteToChar (b : Nat) : Int := if b < 128 then (b : Int) else (b : Int) - 256

/-- A null-terminated C string: every byte is nonzero and fits a byte. -/
def CStr (s : List Nat) : Prop := ∀ b ∈ s, 0 < b ∧ b < 256

/-- Reading index i of the buffer holding string s: an in-range byte is
read as a signed char, index s.length reads the null terminator, and any
larger index is an out-of-bounds access (none). -/
def charAt (s : List Nat) (i : Nat) : Option Int :=
  if h : i < s.length then some (byteToChar s[i])
  else if i = s.length then some 0 else none

/-- The loop of rkhash_init, iterating i = k-1 down to 0 with accumulators
h and sum: sum := madd(mmul(h, charbuf[i]), sum); h := mmul(h, 256). -/
def rkhashInitGo (buf : List Nat) : Nat → Int → Int → Option (Int × Int)
  | 0, h, sum => some (sum, h)
  | k+1, h, sum =>
    match charAt buf k with
    | none => none
    | some c => rkhashInitGo buf k (mmul h 256) (madd (mmul h c) sum)

/-- rkhash_init from rkgrep.c: returns (hash, radix h) where the C code
returns the hash and writes h through a pointer. -/
def rkhash_init (charbuf : List Nat) (m : Nat) : Option (Int × Int) :=
  rkhashInitGo charbuf m 1 0

/-- rkhash_next from rkgrep.c. -/
def rkhash_next (curr_hash h leftmost rightmost : Int) : Int :=
  madd (msub (mmul curr_hash 256) (mmul leftmost h)) rightmost

/-- The inner verification loop of rk_substring_match, comparing
pattern[k] with doc[i+k] for k = 0 .. fuel-1, with early exit on the
first mismatch (so later characters are not read). -/
def verifyLoop (pattern doc : List Nat) (i : Nat) : Nat → Nat → Option Bool
  | _, 0 => some true
  | k, fuel+1 =>
    match charAt pattern k, charAt doc (i + k) with
    | some pc, some dc =>
      if pc = dc then verifyLoop pattern doc i (k+1) fuel else some false
    | _, _ => none

/-- The loop bound strlen(doc) - m of rk_substring_match, computed in
unsigned 64-bit (size_t) arithmetic, so it underflows when m exceeds the
document length. -/
def loopBound (n m : Nat) : Nat := (((n : Int) - (m : Int)) % ((2:Int)^64)).toNat

/-- The scanning loop of rk_substring_match: at each i it verifies on a
hash hit (updating count, and overwriting the first-match cell on every
verified match, as the C code does), then advances the hash reading
doc[i] and doc[i+m]. -/
def rkLoop (pattern doc : List Nat) (m : Nat) (h phash : Int) :
    Nat → Nat → Int → Nat → Option Nat → Option (Nat × Option Nat)
  | 0, _, _, count, first => some (count, first)
  | fuel+1, i, curr, count, first =>
    match (if curr = phash then verifyLoop pattern doc i 0 m else some false) with
    | none => none
    | some ver =>
      match charAt doc i, charAt doc (i + m) with
      | some l, some r =>
        rkLoop pattern doc m h phash fuel (i+1) (rkhash_next curr h l r)
          (if ver then count + 1 else count) (if ver then some i else first)
      | _, _ => none

/-- rk_substring_match from rkgrep.c.  The result pairs the returned
count with the final contents of *first_match_ind (none = never
written); none for the whole result marks undefined behaviour (an
out-of-bounds read). -/
def rk_substring_match (pattern doc : List Nat) : Option (Nat × Option Nat) :=
  match rkhash_init doc pattern.length, rkhash_init pattern pattern.length with
  | some ch, some ph =>
    rkLoop pattern doc pattern.length ch.2 ph.1
      (loopBound doc.length pattern.length) 0 ch.1 0 none
  | _, _ => none

/-- The scanning loop of naive_substring_match: i runs over fuel start
positions; on a full match the count is incremented and the first-match
cell is written only when the count was zero. -/
def naiveLoop (pattern doc : List Nat) (m : Nat) :
    Nat → Nat → Nat → Option Nat → Option (Nat × Option Nat)
  | _, 0, count, first => some (count, first)
  | i, fuel+1, count, first =>
    match verifyLoop pattern doc i 0 m with
    | none => none
    | some ver =>
      naiveLoop pattern doc m (i+1) fuel (if ver then count + 1 else count)
        (if ver then (if count = 0 then some i else first) else first)

/-- naive_substring_match from rkgrep.c.  Its loop bound doc_len - m is
computed in int arithmetic, so a longer pattern yields zero iterations. -/
def naive_substring_match (pattern doc : List Nat) : Option (Nat × Option Nat) :=
  naiveLoop pattern doc pattern.length 0 (doc.length - pattern.length) 0 none

/-- Modelled from the spec: bloom.c / bloom.h are not part of src; the
filter is specified only through its membership contract, so it is
instantiated here as the exact set (a list) of inserted hash values —
an admissible filter with no false positives.  bloom_init allocates an
empty filter (the size parameter only calibrates the real structure). -/
def bloom_init (_bloom_size : Nat) : List Int := []

/-- Modelled from the spec: bloom_add inserts a hash value. -/
def bloom_add (bf : List Int) (v : Int) : List Int := bf ++ [v]

/-- Modelled from the spec: bloom_query reports whether a value may have
been inserted; in the exact-set instantiation, exact membership. -/
def bloom_query (bf : List Int) (v : Int) : Bool := decide (v ∈ bf)

/-- The loop bound strlen(doc) - m + 1 of rk_create_doc_bloom, computed
in unsigned 64-bit (size_t) arithmetic. -/
def bloomBound (n m : Nat) : Nat :=
  (((n : Int) - (m : Int) + 1) % ((2:Int)^64)).toNat

/-- The loop of rk_create_doc_bloom: at each i it inserts the current
hash, then advances the hash reading doc[i] and doc[i+m]. -/
def bloomLoop (doc : List Nat) (m : Nat) (h : Int) :
    Nat → Nat → Int → List Int → Option (List Int)
  | 0, _, _, bf => some bf
  | fuel+1, i, curr, bf =>
    match charAt doc i, charAt doc (i + m) with
    | some l, some r =>
      bloomLoop doc m h fuel (i+1) (rkhash_next curr h l r) (bloom_add bf curr)
    | _, _ => none

/-- rk_create_doc_bloom from rkgrep.c. -/
def rk_create_doc_bloom (m : Nat) (doc : List Nat) (bloom_size : Nat) :
    Option (List Int) :=
  match rkhash_init doc m with
  | none => none
  | some ch =>
    bloomLoop doc m ch.2 (bloomBound doc.length m) 0 ch.1 (bloom_init bloom_size)

/-- rk_substring_match_using_bloom from rkgrep.c.  In the positive filter
branch the C function calls rk_substring_match but contains no return
statement, so control falls off the end of a non-void function: the
value it returns is undefined, modelled as none (after propagating any
undefined behaviour of the inner call). -/
def rk_substring_match_using_bloom (pattern doc : List Nat) (bf : List Int) :
    Option (Nat × Option Nat) :=
  match rkhash_init pattern pattern.length with
  | none => none
  | some ph =>
    if bloom_query bf ph.1 then
      match rk_substring_match pattern doc with
      | _ => none
    else some (0, none)

/-- Applying rkhash_next fuel times starting at window position t, as the
claims describe the rolling recomputation: step t slides off doc[t] and
takes in doc[t+m]. -/
def rollIter (doc : List Nat) (m : Nat) (h : Int) :
    Nat → Nat → Int → Option Int
  | _, 0, curr => some curr
  | t, fuel+1, curr =>
    match charAt doc t, charAt doc (t + m) with
    | some l, some r => rollIter doc m h (t+1) fuel (rkhash_next curr h l r)
    | _, _ => none

/-- The hash of the window at position i obtained by rkhash_init on the
first window followed by i applications of rkhash_next, exactly as
rk_substring_match computes it. -/
def rollHashAt (doc : List Nat) (m i : Nat) : Option Int :=
  match rkhash_init doc m with
  | none => none
  | some ch => rollIter doc m ch.2 0 i ch.1

/-- The length-m window of doc starting at position i. -/
def windowAt (doc : List Nat) (m i : Nat) : List Nat := (doc.drop i).take m

/-- The signed-char values of a byte string. -/
def chars (w : List Nat) : List Int := w.map byteToChar

/-- The base-256 polynomial value of a list of char values (exact integer
arithmetic, no modulus). -/
def polyHash (l : List Int) : Int := l.foldl (fun a c => 256 * a + c) 0

/-- The canonical hash of the window at position i: its polynomial value
reduced into [0, PRIME). -/
def hornerAt (doc : List Nat) (m i : Nat) : Int :=
  (polyHash (chars (windowAt doc m i))) % PRIME

/-! Arithmetic facts about the modular primitives. -/

lemma PRIME_posI : (0:Int) < PRIME := by norm_num [PRIME]

lemma emodP_nonneg (x : Int) : 0 ≤ x % PRIME := Int.emod_nonneg x (by norm_num [PRIME])

lemma emodP_lt (x : Int) : x % PRIME < PRIME := Int.emod_lt_of_pos x PRIME_posI

lemma emodP_absorb (x : Int) : Int.ModEq PRIME (x % PRIME) x :=
  Int.emod_emod_of_dvd x dvd_rfl

lemma tmod_to_emod (x : Int) (hx : 0 ≤ x) : x.tmod PRIME = x % PRIME :=
  Int.tmod_eq_emod hx (le_of_lt PRIME_posI)

lemma madd_eq (a b : Int) (ha : 0 ≤ a) (hb : 0 ≤ b) : madd a b = (a + b) % PRIME := by
  simp only [madd]
  exact tmod_to_emod _ (add_nonneg ha hb)

lemma mmul_eq (a b : Int) (ha : 0 ≤ a) (hb : 0 ≤ b) : mmul a b = (a * b) % PRIME := by
  simp only [mmul]
  exact tmod_to_emod _ (mul_nonneg ha hb)

lemma msub_modeq (a b : Int) : Int.ModEq PRIME (msub a b) (a - b) := by
  unfold msub
  split
  · exact Int.ModEq.refl _
  · have h1 : a + PRIME - b = a - b + PRIME * 1 := by ring
    rw [h1]
    show (a - b + PRIME * 1) % PRIME = (a - b) % PRIME
    exact Int.add_mul_emod_self_left (a - b) PRIME 1

lemma msub_bounds (a b : Int) (ha : 0 ≤ a) (ha2 : a < PRIME) (hb : 0 ≤ b)
    (hb2 : b < PRIME) : 0 ≤ msub a b ∧ msub a b ≤ PRIME := by
  unfold msub
  simp only [PRIME] at *
  split <;> omega

lemma rkhash_next_spec (curr h l r : Int) (hc : 0 ≤ curr) (hc2 : curr < PRIME)
    (hh : 0 ≤ h) (hh2 : h < PRIME) (hl : 0 ≤ l) (hr : 0 ≤ r) :
    rkhash_next curr h l r = (256 * curr - l * h + r) % PRIME := by
  have hx : mmul curr 256 = (curr * 256) % PRIME :=
    mmul_eq curr 256 hc (by norm_num)
  have hy : mmul l h = (l * h) % PRIME := mmul_eq l h hl hh
  have hsb := msub_bounds ((curr * 256) % PRIME) ((l * h) % PRIME)
    (emodP_nonneg _) (emodP_lt _) (emodP_nonneg _) (emodP_lt _)
  have hma : madd (msub ((curr * 256) % PRIME) ((l * h) % PRIME)) r =
      (msub ((curr * 256) % PRIME) ((l * h) % PRIME) + r) % PRIME :=
    madd_eq _ r hsb.1 hr
  have hcong : Int.ModEq PRIME
      (msub ((curr * 256) % PRIME) ((l * h) % PRIME) + r)
      (curr * 256 - l * h + r) :=
    Int.ModEq.add
      ((msub_modeq _ _).trans (Int.ModEq.sub (emodP_absorb _) (emodP_absorb _)))
      (Int.ModEq.refl r)
  have hring : curr * 256 - l * h + r = 256 * curr - l * h + r := by ring
  unfold rkhash_next
  rw [hx, hy, hma, ← hring]
  exact hcong

/-! The exact base-256 polynomial value of a window and its algebra. -/

lemma polyHash_foldl (l : List Int) : ∀ a : Int,
    l.foldl (fun x c => 256 * x + c) a = a * 256 ^ l.length + polyHash l := by
  induction l with
  | nil => intro a; simp [polyHash]
  | cons c t ih =>
    intro a
    simp only [List.foldl_cons, List.length_cons, polyHash] at *
    rw [ih (256 * a + c), ih (256 * 0 + c)]
    ring

lemma polyHash_cons (c : Int) (t : List Int) :
    polyHash (c :: t) = c * 256 ^ t.length + polyHash t := by
  have h1 := polyHash_foldl t c
  simp only [polyHash, List.foldl_cons]
  calc List.foldl (fun x cc => 256 * x + cc) (256 * 0 + c) t
      = List.foldl (fun x cc => 256 * x + cc) c t := by norm_num
    _ = c * 256 ^ t.length + polyHash t := h1

lemma polyHash_append_single (l : List Int) (c : Int) :
    polyHash (l ++ [c]) = 256 * polyHash l + c := by
  simp [polyHash, List.foldl_append]

/-! Characterization of rkhash_init on documents of 7-bit bytes. -/

lemma byteToChar_of_lt (b : Nat) (hb : b < 128) : byteToChar b = (b : Int) := by
  simp [byteToChar, hb]

lemma byteToChar_nonneg (b : Nat) (hb : b < 128) : 0 ≤ byteToChar b := by
  rw [byteToChar_of_lt b hb]
  exact Int.ofNat_nonneg b

lemma byteToChar_lt_prime (b : Nat) (hb : b < 128) : byteToChar b < PRIME := by
  rw [byteToChar_of_lt b hb]
  simp only [PRIME]
  omega

lemma charAt_of_lt (s : List Nat) (i : Nat) (h : i < s.length) :
    charAt s i = some (byteToChar (s.getD i 0)) := by
  rw [List.getD_eq_getElem s 0 h]
  simp [charAt, h]

lemma getD_mem (s : List Nat) (i : Nat) (h : i < s.length) : s.getD i 0 ∈ s := by
  rw [List.getD_eq_getElem s 0 h]
  exact List.getElem_mem h

lemma rkhashInitGo_spec (w : List Nat) (hw : ∀ b ∈ w, b < 128) :
    ∀ (k : Nat), k ≤ w.length → ∀ h s : Int, 0 ≤ h → h < PRIME → 0 ≤ s → s < PRIME →
    rkhashInitGo w k h s =
      some ((h * polyHash (chars (w.take k)) + s) % PRIME,
            (h * 256 ^ k) % PRIME) := by
  intro k
  induction k with
  | zero =>
    intro _ h s hh1 hh2 hs1 hs2
    simp only [rkhashInitGo, List.take_zero, chars, List.map_nil, polyHash,
      List.foldl_nil, mul_zero, zero_add, pow_zero, mul_one,
      Int.emod_eq_of_lt hs1 hs2, Int.emod_eq_of_lt hh1 hh2]
  | succ k ih =>
    intro hk h s hh1 hh2 hs1 hs2
    have hklt : k < w.length := by omega
    have hb : w.getD k 0 < 128 := hw _ (getD_mem w k hklt)
    have hcnn : 0 ≤ byteToChar (w.getD k 0) := byteToChar_nonneg _ hb
    have hstep : rkhashInitGo w (k+1) h s =
        rkhashInitGo w k (mmul h 256) (madd (mmul h (byteToChar (w.getD k 0))) s) := by
      rw [show rkhashInitGo w (k+1) h s =
          match charAt w k with
          | none => none
          | some c => rkhashInitGo w k (mmul h 256) (madd (mmul h c) s) from rfl,
        charAt_of_lt w k hklt]
    have hmm : mmul h 256 = (h * 256) % PRIME := mmul_eq h 256 hh1 (by norm_num)
    have hmc : mmul h (byteToChar (w.getD k 0)) =
        (h * byteToChar (w.getD k 0)) % PRIME := mmul_eq _ _ hh1 hcnn
    have hms : madd ((h * byteToChar (w.getD k 0)) % PRIME) s =
        ((h * byteToChar (w.getD k 0)) % PRIME + s) % PRIME :=
      madd_eq _ s (emodP_nonneg _) hs1
    rw [hstep, hmm, hmc, hms,
      ih (by omega) _ _ (emodP_nonneg _) (emodP_lt _) (emodP_nonneg _) (emodP_lt _)]
    have htake : w.take (k+1) = w.take k ++ [w.getD k 0] := by
      rw [List.take_succ, List.getElem?_eq_getElem hklt, List.getD_eq_getElem w 0 hklt]
      rfl
    have hpoly : polyHash (chars (w.take (k+1))) =
        256 * polyHash (chars (w.take k)) + byteToChar (w.getD k 0) := by
      rw [htake]
      simp only [chars, List.map_append, List.map_cons, List.map_nil]
      exact polyHash_append_single _ _
    congr 1
    congr 1
    · show ((h * 256) % PRIME * polyHash (chars (w.take k)) +
          ((h * byteToChar (w.getD k 0)) % PRIME + s) % PRIME) % PRIME =
        (h * polyHash (chars (w.take (k+1))) + s) % PRIME
      have hcong : Int.ModEq PRIME
          ((h * 256) % PRIME * polyHash (chars (w.take k)) +
            ((h * byteToChar (w.getD k 0)) % PRIME + s) % PRIME)
          (h * 256 * polyHash (chars (w.take k)) +
            (h * byteToChar (w.getD k 0) + s)) :=
        Int.ModEq.add (Int.ModEq.mul (emodP_absorb _) (Int.ModEq.refl _))
          ((emodP_absorb _).trans (Int.ModEq.add (emodP_absorb _) (Int.ModEq.refl s)))
      have hring : h * 256 * polyHash (chars (w.take k)) +
          (h * byteToChar (w.getD k 0) + s) =
          h * (256 * polyHash (chars (w.take k)) + byteToChar (w.getD k 0)) + s := by
        ring
      rw [hpoly, ← hring]
      exact hcong
    · show ((h * 256) % PRIME * 256 ^ k) % PRIME = (h * 256 ^ (k+1)) % PRIME
      have hcong : Int.ModEq PRIME ((h * 256) % PRIME * 256 ^ k)
          (h * 256 * 256 ^ k) :=
        Int.ModEq.mul (emodP_absorb _) (Int.ModEq.refl _)
      have hring : h * 256 * 256 ^ k = h * 256 ^ (k+1) := by ring
      rw [← hring]
      exact hcong

lemma rkhash_init_spec (w : List Nat) (m : Nat) (hw : ∀ b ∈ w, b < 128)
    (hm : m ≤ w.length) :
    rkhash_init w m =
      some ((polyHash (chars (w.take m))) % PRIME, ((256:Int) ^ m) % PRIME) := by
  have h := rkhashInitGo_spec w hw m hm 1 0 (by norm_num) (by norm_num [PRIME])
    (by norm_num) (by norm_num [PRIME])
  simpa [rkhash_init] using h

/-! The rolling update recomputes each window hash (7-bit bytes). -/

lemma windowAt_shift_left (doc : List Nat) (m t : Nat) (hm : 1 ≤ m)
    (ht : t + 1 + m ≤ doc.length) :
    windowAt doc m t = doc.getD t 0 :: (doc.drop (t+1)).take (m-1) := by
  unfold windowAt
  have h1 : t < doc.length := by omega
  rw [List.drop_eq_getElem_cons h1, List.getD_eq_getElem doc 0 h1]
  obtain ⟨q, rfl⟩ : ∃ q, m = q + 1 := ⟨m - 1, by omega⟩
  simp only [List.take_succ_cons, Nat.add_sub_cancel]

lemma windowAt_shift_right (doc : List Nat) (m t : Nat) (hm : 1 ≤ m)
    (ht : t + 1 + m ≤ doc.length) :
    windowAt doc m (t+1) = (doc.drop (t+1)).take (m-1) ++ [doc.getD (t+m) 0] := by
  unfold windowAt
  obtain ⟨q, rfl⟩ : ∃ q, m = q + 1 := ⟨m - 1, by omega⟩
  rw [List.take_succ, List.getElem?_drop]
  have h2 : t + 1 + q < doc.length := by omega
  rw [List.getElem?_eq_getElem h2,
    List.getD_eq_getElem doc 0 (show t + (q+1) < doc.length by omega)]
  have hidx : t + 1 + q = t + (q + 1) := by omega
  simp only [Nat.add_sub_cancel, Option.toList_some, hidx]

lemma length_window_tail (doc : List Nat) (m t : Nat) (hm : 1 ≤ m)
    (ht : t + 1 + m ≤ doc.length) :
    ((doc.drop (t+1)).take (m-1)).length = m - 1 := by
  simp only [List.length_take, List.length_drop]
  omega

lemma hornerAt_nonneg (doc : List Nat) (m i : Nat) : 0 ≤ hornerAt doc m i :=
  emodP_nonneg _

lemma hornerAt_lt (doc : List Nat) (m i : Nat) : hornerAt doc m i < PRIME :=
  emodP_lt _

lemma roll_step (doc : List Nat) (m t : Nat) (hw : ∀ b ∈ doc, b < 128)
    (hm : 1 ≤ m) (ht : t + 1 + m ≤ doc.length) :
    rkhash_next (hornerAt doc m t) (((256:Int) ^ m) % PRIME)
        (byteToChar (doc.getD t 0)) (byteToChar (doc.getD (t+m) 0))
      = hornerAt doc m (t+1) := by
  have hbl : doc.getD t 0 < 128 := hw _ (getD_mem doc t (by omega))
  have hbr : doc.getD (t+m) 0 < 128 := hw _ (getD_mem doc (t+m) (by omega))
  rw [rkhash_next_spec _ _ _ _ (hornerAt_nonneg doc m t) (hornerAt_lt doc m t)
    (emodP_nonneg _) (emodP_lt _) (byteToChar_nonneg _ hbl) (byteToChar_nonneg _ hbr)]
  have hdecomp : polyHash (chars (windowAt doc m (t+1))) =
      256 * polyHash (chars (windowAt doc m t))
        - byteToChar (doc.getD t 0) * 256 ^ m + byteToChar (doc.getD (t+m) 0) := by
    rw [windowAt_shift_left doc m t hm ht, windowAt_shift_right doc m t hm ht]
    simp only [chars, List.map_cons, List.map_append, List.map_nil]
    rw [polyHash_cons, polyHash_append_single, List.length_map,
      length_window_tail doc m t hm ht]
    obtain ⟨q, rfl⟩ : ∃ q, m = q + 1 := ⟨m - 1, by omega⟩
    simp only [Nat.add_sub_cancel]
    ring
  have hcong : Int.ModEq PRIME
      (256 * hornerAt doc m t - byteToChar (doc.getD t 0) * (((256:Int) ^ m) % PRIME)
        + byteToChar (doc.getD (t+m) 0))
      (polyHash (chars (windowAt doc m (t+1)))) := by
    rw [hdecomp]
    exact Int.ModEq.add
      (Int.ModEq.sub (Int.ModEq.mul (Int.ModEq.refl 256) (emodP_absorb _))
        (Int.ModEq.mul (Int.ModEq.refl _) (emodP_absorb _)))
      (Int.ModEq.refl _)
  exact hcong

lemma rollIter_spec (doc : List Nat) (m : Nat) (hw : ∀ b ∈ doc, b < 128)
    (hm : 1 ≤ m) :
    ∀ (fuel t : Nat), t + fuel + m ≤ doc.length →
    rollIter doc m (((256:Int) ^ m) % PRIME) t fuel (hornerAt doc m t) =
      some (hornerAt doc m (t + fuel)) := by
  intro fuel
  induction fuel with
  | zero => intro t _; simp [rollIter]
  | succ fuel ih =>
    intro t hb
    have h1 : t < doc.length := by omega
    have h2 : t + m < doc.length := by omega
    show (match charAt doc t, charAt doc (t + m) with
      | some l, some r => rollIter doc m (((256:Int) ^ m) % PRIME) (t+1) fuel
          (rkhash_next (hornerAt doc m t) (((256:Int) ^ m) % PRIME) l r)
      | _, _ => none) = some (hornerAt doc m (t + (fuel+1)))
    rw [charAt_of_lt doc t h1, charAt_of_lt doc (t+m) h2]
    show rollIter doc m (((256:Int) ^ m) % PRIME) (t+1) fuel
        (rkhash_next (hornerAt doc m t) (((256:Int) ^ m) % PRIME)
          (byteToChar (doc.getD t 0)) (byteToChar (doc.getD (t+m) 0)))
      = some (hornerAt doc m (t + (fuel+1)))
    rw [roll_step doc m t hw hm (by omega), ih (t+1) (by omega)]
    congr 2
    omega

lemma windowAt_zero (doc : List Nat) (m : Nat) : windowAt doc m 0 = doc.take m := by
  simp [windowAt]

lemma windowAt_length (doc : List Nat) (m i : Nat) (hi : i + m ≤ doc.length) :
    (windowAt doc m i).length = m := by
  simp only [windowAt, List.length_take, List.length_drop]
  omega

lemma windowAt_mem (doc : List Nat) (m i : Nat) {b : Nat}
    (hb : b ∈ windowAt doc m i) : b ∈ doc :=
  List.drop_subset i doc (List.take_subset m _ hb)

lemma rkhash_init_window (doc : List Nat) (m i : Nat) (hw : ∀ b ∈ doc, b < 128)
    (hi : i + m ≤ doc.length) :
    rkhash_init (windowAt doc m i) m =
      some (hornerAt doc m i, ((256:Int) ^ m) % PRIME) := by
  have hlen : m ≤ (windowAt doc m i).length := by
    rw [windowAt_length doc m i hi]
  rw [rkhash_init_spec (windowAt doc m i) m
    (fun b hb => hw b (windowAt_mem doc m i hb)) hlen]
  rw [List.take_of_length_le (by rw [windowAt_length doc m i hi])]
  rfl

lemma rollHashAt_spec (doc : List Nat) (m i : Nat) (hw : ∀ b ∈ doc, b < 128)
    (hm : 1 ≤ m) (hi : i + m ≤ doc.length) :
    rollHashAt doc m i = some (hornerAt doc m i) := by
  unfold rollHashAt
  rw [rkhash_init_spec doc m hw (by omega)]
  show rollIter doc m (((256:Int) ^ m) % PRIME) 0 i
      ((polyHash (chars (doc.take m))) % PRIME) = some (hornerAt doc m i)
  have h0 : (polyHash (chars (doc.take m))) % PRIME = hornerAt doc m 0 := by
    rw [hornerAt, windowAt_zero]
  rw [h0, rollIter_spec doc m hw hm i 0 (by omega)]
  rw [Nat.zero_add]

lemma charAt_some_of_le (s : List Nat) (i : Nat) (h : i ≤ s.length) :
    ∃ v, charAt s i = some v := by
  by_cases hlt : i < s.length
  · exact ⟨byteToChar (s.getD i 0), charAt_of_lt s i hlt⟩
  · have : i = s.length := by omega
    exact ⟨0, by simp [charAt, this]⟩

lemma bloomLoop_spec (doc : List Nat) (m : Nat) (hw : ∀ b ∈ doc, b < 128)
    (hm : 1 ≤ m) :
    ∀ (fuel : Nat), ∀ (i : Nat) (curr : Int) (bf : List Int),
      i + fuel + m ≤ doc.length + 1 →
      (fuel = 0 ∨ curr = hornerAt doc m i) →
      bloomLoop doc m (((256:Int) ^ m) % PRIME) fuel i curr bf =
        some (bf ++ (List.range fuel).map (fun j => hornerAt doc m (i + j))) := by
  intro fuel
  induction fuel with
  | zero => intro i curr bf _ _; simp [bloomLoop]
  | succ fuel ih =>
    intro i curr bf hb hcurr
    have hcurr2 : curr = hornerAt doc m i := by
      rcases hcurr with h | h
      · exact absurd h (Nat.succ_ne_zero fuel)
      · exact h
    have hi1 : i < doc.length := by omega
    have him : i + m ≤ doc.length := by omega
    obtain ⟨r, hr⟩ := charAt_some_of_le doc (i + m) him
    have hstep : bloomLoop doc m (((256:Int) ^ m) % PRIME) (fuel+1) i curr bf =
        bloomLoop doc m (((256:Int) ^ m) % PRIME) fuel (i+1)
          (rkhash_next curr (((256:Int) ^ m) % PRIME) (byteToChar (doc.getD i 0)) r)
          (bloom_add bf curr) := by
      show (match charAt doc i, charAt doc (i + m) with
        | some l, some rr =>
          bloomLoop doc m (((256:Int) ^ m) % PRIME) fuel (i+1)
            (rkhash_next curr (((256:Int) ^ m) % PRIME) l rr) (bloom_add bf curr)
        | _, _ => none) = _
      rw [charAt_of_lt doc i hi1, hr]
    rw [hstep]
    rcases Nat.eq_zero_or_pos fuel with hf0 | hfpos
    · subst hf0
      show bloomLoop doc m (((256:Int) ^ m) % PRIME) 0 (i+1) _ (bloom_add bf curr) = _
      simp [bloomLoop, bloom_add, hcurr2, List.range_succ, Nat.add_zero]
    · have him2 : i + 1 + m ≤ doc.length := by omega
      have hrr : r = byteToChar (doc.getD (i + m) 0) := by
        rw [charAt_of_lt doc (i + m) (by omega)] at hr
        exact (Option.some_injective _ hr).symm
      have hnext : rkhash_next curr (((256:Int) ^ m) % PRIME)
          (byteToChar (doc.getD i 0)) r = hornerAt doc m (i+1) := by
        rw [hcurr2, hrr]
        exact roll_step doc m i hw hm (by omega)
      rw [hnext, ih (i+1) _ (bloom_add bf curr) (by omega) (Or.inr rfl)]
      congr 1
      rw [bloom_add, hcurr2, List.append_assoc]
      congr 1
      rw [List.range_succ_eq_map, List.map_cons, List.map_map, List.singleton_append]
      congr 1
      apply List.map_congr_left
      intro a _
      show hornerAt doc m (i + 1 + a) = hornerAt doc m (i + Nat.succ a)
      congr 1
      omega

lemma rk_create_doc_bloom_spec (doc : List Nat) (m sz : Nat)
    (hw : ∀ b ∈ doc, b < 128) (hm : 1 ≤ m) (hmn : m ≤ doc.length)
    (hn : doc.length < 2^64) :
    rk_create_doc_bloom m doc sz =
      some ((List.range (doc.length - m + 1)).map (fun j => hornerAt doc m j)) := by
  unfold rk_create_doc_bloom
  rw [rkhash_init_spec doc m hw hmn]
  have hn2 : doc.length < 18446744073709551616 := by
    have h64 : (2:Nat)^64 = 18446744073709551616 := by norm_num
    omega
  have hbb : bloomBound doc.length m = doc.length - m + 1 := by
    unfold bloomBound
    have h64 : ((2:Int)^64) = 18446744073709551616 := by norm_num
    rw [h64, Int.emod_eq_of_lt (by omega) (by omega)]
    omega
  show bloomLoop doc m (((256:Int) ^ m) % PRIME) (bloomBound doc.length m) 0
      ((polyHash (chars (doc.take m))) % PRIME) (bloom_init sz) = _
  have h0 : (polyHash (chars (doc.take m))) % PRIME = hornerAt doc m 0 := by
    rw [hornerAt, windowAt_zero]
  rw [hbb, h0,
    bloomLoop_spec doc m hw hm (doc.length - m + 1) 0 (hornerAt doc m 0)
      (bloom_init sz) (by omega) (Or.inr rfl)]
  congr 1
  show (List.range (doc.length - m + 1)).map (fun j => hornerAt doc m (0 + j)) = _
  apply List.map_congr_left
  intro a _
  rw [Nat.zero_add]

/-! The hash value as the Horner sum written in the design documents. -/

/-- The polynomial hash value named in the design text: the sum of
window[j] * 256^(m-1-j) over the window, the bytes taken as unsigned
magnitudes. -/
def hornerSum (w : List Nat) : Int :=
  ∑ j ∈ Finset.range w.length, (w.getD j 0 : Int) * 256 ^ (w.length - 1 - j)

lemma polyHash_eq_sum (l : List Int) :
    polyHash l = ∑ j ∈ Finset.range l.length, l.getD j 0 * 256 ^ (l.length - 1 - j) := by
  induction l with
  | nil => simp [polyHash]
  | cons c t ih =>
    rw [polyHash_cons, ih]
    rw [show (c :: t).length = t.length + 1 from rfl, Finset.sum_range_succ']
    simp only [List.getD_cons_succ, List.getD_cons_zero, Nat.add_sub_cancel,
      Nat.sub_zero]
    rw [add_comm]
    congr 1
    apply Finset.sum_congr rfl
    intro j hj
    congr 2
    omega

lemma polyHash_chars_eq_hornerSum (w : List Nat) (hw : ∀ b ∈ w, b < 128) :
    polyHash (chars w) = hornerSum w := by
  rw [polyHash_eq_sum, hornerSum]
  have hlen : (chars w).length = w.length := by simp [chars]
  rw [hlen]
  apply Finset.sum_congr rfl
  intro j hj
  have hj2 : j < w.length := Finset.mem_range.mp hj
  congr 1
  rw [List.getD_eq_getElem (chars w) 0 (by simpa [chars] using hj2),
    List.getD_eq_getElem w 0 hj2]
  simp only [chars, List.getElem_map]
  exact byteToChar_of_lt _ (hw _ (List.getElem_mem hj2))

/-! Behaviour of the scanner on the empty pattern. -/

set_option maxRecDepth 4000 in
lemma rkhash_next_self (b : Nat) :
    b < 256 → rkhash_next 0 1 (byteToChar b) (byteToChar b) = 0 := by
  revert b
  decide

lemma rkLoop_empty (doc : List Nat) (hcs : ∀ b ∈ doc, b < 256) :
    ∀ (fuel : Nat), ∀ (i count : Nat) (first : Option Nat),
      i + fuel ≤ doc.length →
      rkLoop [] doc 0 1 0 fuel i 0 count first =
        some (count + fuel, if fuel = 0 then first else some (i + fuel - 1)) := by
  intro fuel
  induction fuel with
  | zero => intro i count first _; simp [rkLoop]
  | succ fuel ih =>
    intro i count first hb
    have hi1 : i < doc.length := by omega
    have hstep : rkLoop [] doc 0 1 0 (fuel+1) i 0 count first =
        rkLoop [] doc 0 1 0 fuel (i+1)
          (rkhash_next 0 1 (byteToChar (doc.getD i 0)) (byteToChar (doc.getD i 0)))
          (count + 1) (some i) := by
      show (match (if (0:Int) = 0 then verifyLoop [] doc i 0 0 else some false) with
        | none => none
        | some ver =>
          match charAt doc i, charAt doc (i + 0) with
          | some l, some r =>
            rkLoop [] doc 0 1 0 fuel (i+1) (rkhash_next 0 1 l r)
              (if ver then count + 1 else count) (if ver then some i else first)
          | _, _ => none) = _
      rw [if_pos rfl]
      show (match charAt doc i, charAt doc (i + 0) with
        | some l, some r =>
          rkLoop [] doc 0 1 0 fuel (i+1) (rkhash_next 0 1 l r)
            (count + 1) (some i)
        | _, _ => none) = _
      rw [Nat.add_zero, charAt_of_lt doc i hi1]
    rw [hstep, rkhash_next_self (doc.getD i 0) (hcs _ (getD_mem doc i hi1)),
      ih (i+1) (count+1) (some i) (by omega)]
    rcases Nat.eq_zero_or_pos fuel with hf0 | hfpos
    · subst hf0
      simp
    · have h1 : (fuel = 0) = False := by simp [Nat.pos_iff_ne_zero.mp hfpos]
      simp only [h1, if_false, if_neg (Nat.succ_ne_zero fuel)]
      have e1 : count + 1 + fuel = count + (fuel + 1) := by omega
      have e2 : i + 1 + fuel - 1 = i + (fuel + 1) - 1 := by omega
      rw [e1, e2]

/-! Claim theorems. -/

/-- C1: the claim that rk_substring_match and naive_substring_match agree on
both the count and *first_match_ind fails: on pattern "ab" and document
"ababa" the counts agree (2) but the naive scanner records the first match
index 0 while rk_substring_match overwrites the cell on every verified
match and leaves the last match index 2. -/
theorem c1_first_match_overwritten :
    naive_substring_match [97,98] [97,98,97,98,97] = some (2, some 0) ∧
    rk_substring_match [97,98] [97,98,97,98,97] = some (2, some 2) := by
  decide

/-- C2: the positive filter branch of rk_substring_match_using_bloom calls
rk_substring_match but has no return statement, so the returned count is
undefined (none) even though the exact matcher itself returns some (1, 0);
the filter here is exactly the one rk_create_doc_bloom builds for the
document. -/
theorem c2_missing_return_in_bloom_path :
    rk_create_doc_bloom 1 [97,97] 8 = some [97, 97] ∧
    rk_substring_match [97] [97,97] = some (1, some 0) ∧
    rk_substring_match_using_bloom [97] [97,97] [97, 97] = none := by
  decide

/-- C3: the scan loop runs i < strlen(doc) - m, so the start index
len(doc) - m is never examined: on pattern "abc" and document "abc" the
matcher returns count 0 and never writes *first_match_ind, not (1, 0) as
the claim states. -/
theorem c3_last_start_index_skipped :
    rk_substring_match [97,98,99] [97,98,99] = some (0, none) := by
  decide

/-- C4: on pattern "ab" and document "ababab" the code returns count 2
(the match at index 4 = len(doc) - m is skipped by the loop bound) and
*first_match_ind = 2 (overwritten at every match), not (3, 0) as the
claim states. -/
theorem c4_count_and_first_index_diverge :
    rk_substring_match [97,98] [97,98,97,98,97,98] = some (2, some 2) := by
  decide

/-- C5 as stated is false: over the signed chars used by the code, the
rolled hash inserted into the filter for the window at position 1 of
document [65, 200] is 961748885, while rkhash_init computes -56 for the
same one-byte pattern [200]; the exact-set filter instantiation therefore
answers a query for the pattern's hash negatively although the pattern
occurs. -/
theorem c5_false_negative_high_byte :
    windowAt [65,200] 1 1 = [200] ∧
    rk_create_doc_bloom 1 [65,200] 8 = some [65, 961748885] ∧
    rkhash_init [200] 1 = some (-56, 256) ∧
    bloom_query [65, 961748885] (-56) = false := by
  decide

/-- C5 amended to documents of 7-bit bytes: if the pattern occurs in the
document as the window at position i, then building the filter with
window length len(pattern) and querying it with the hash rkhash_init
computes for the pattern reports present. -/
theorem c5_no_false_negative_ascii (pattern doc : List Nat) (sz i : Nat)
    (hcs : ∀ b ∈ doc, 0 < b ∧ b < 128) (hm : 1 ≤ pattern.length)
    (hn : doc.length < 2^64) (hi : i + pattern.length ≤ doc.length)
    (hocc : windowAt doc pattern.length i = pattern) :
    ∃ bf ph, rk_create_doc_bloom pattern.length doc sz = some bf ∧
      rkhash_init pattern pattern.length = some ph ∧
      bloom_query bf ph.1 = true := by
  have hw : ∀ b ∈ doc, b < 128 := fun b hb => (hcs b hb).2
  refine ⟨(List.range (doc.length - pattern.length + 1)).map
      (fun j => hornerAt doc pattern.length j),
    (hornerAt doc pattern.length i, ((256:Int) ^ pattern.length) % PRIME),
    rk_create_doc_bloom_spec doc pattern.length sz hw hm (by omega) hn, ?_, ?_⟩
  · have hwin := rkhash_init_window doc pattern.length i hw hi
    rw [hocc] at hwin
    exact hwin
  · unfold bloom_query
    apply decide_eq_true
    apply List.mem_map.mpr
    exact ⟨i, List.mem_range.mpr (by omega), rfl⟩

/-- Witness for the amended C5 at pattern [97] occurring at position 0 of
document [97]. -/
theorem c5_no_false_negative_ascii_witness :
    ∃ bf ph, rk_create_doc_bloom 1 [97] 4 = some bf ∧
      rkhash_init [97] 1 = some ph ∧ bloom_query bf ph.1 = true :=
  c5_no_false_negative_ascii [97] [97] 4 0 (by decide) (by decide)
    (by norm_num) (by decide) (by decide)

/-- C6 as stated is false: on document [65, 200] with window length 1, the
hash rolled forward once from the first window is 961748885, while
rkhash_init on the window at position 1 gives -56; the two long long
values differ (they are congruent mod PRIME but the code compares them
with ==). -/
theorem c6_rolling_differs_high_byte :
    rollHashAt [65,200] 1 1 = some 961748885 ∧
    Option.map Prod.fst (rkhash_init (windowAt [65,200] 1 1) 1) = some (-56) ∧
    (961748885 : Int) ≠ -56 := by
  decide

/-- C6 amended to documents of 7-bit bytes: initializing on the first
window and applying rkhash_next i times yields exactly the value
rkhash_init computes directly on the window at position i. -/
theorem c6_rolling_recompute_ascii (doc : List Nat) (m i : Nat)
    (hcs : ∀ b ∈ doc, 0 < b ∧ b < 128) (hm : 1 ≤ m) (hi : i + m ≤ doc.length) :
    rollHashAt doc m i = Option.map Prod.fst (rkhash_init (windowAt doc m i) m) := by
  have hw : ∀ b ∈ doc, b < 128 := fun b hb => (hcs b hb).2
  rw [rollHashAt_spec doc m i hw hm hi, rkhash_init_window doc m i hw hi]
  rfl

/-- Witness for the amended C6 on document [97,98,99], window length 2,
position 1. -/
theorem c6_rolling_recompute_ascii_witness :
    rollHashAt [97,98,99] 2 1 =
      Option.map Prod.fst (rkhash_init (windowAt [97,98,99] 2 1) 2) :=
  c6_rolling_recompute_ascii [97,98,99] 2 1 (by decide) (by decide) (by decide)

/-- C7 as stated is false: on the one-byte window [255] the code reads the
byte as the signed char -1 and returns hash -1, while the Horner sum of
the byte taken as an unsigned magnitude is 255; the returned value is
also negative, outside [0, PRIME). -/
theorem c7_init_high_byte :
    rkhash_init [255] 1 = some (-1, 256) ∧
    (hornerSum [255]) % PRIME = 255 ∧
    ((-1 : Int) ≠ 255) ∧ ¬ ((0:Int) ≤ -1) := by
  decide

/-- C7 amended to windows of 7-bit bytes: rkhash_init returns the Horner
polynomial sum of the window reduced mod PRIME, a value in [0, PRIME),
and the radix value 256^m mod PRIME. -/
theorem c7_init_horner_ascii (w : List Nat) (hm : 1 ≤ w.length)
    (hw : ∀ b ∈ w, b < 128) :
    rkhash_init w w.length =
      some ((hornerSum w) % PRIME, ((256:Int) ^ w.length) % PRIME) ∧
    0 ≤ (hornerSum w) % PRIME ∧ (hornerSum w) % PRIME < PRIME := by
  refine ⟨?_, emodP_nonneg _, emodP_lt _⟩
  have h := rkhash_init_spec w w.length hw (le_refl _)
  rw [List.take_length] at h
  rw [h, polyHash_chars_eq_hornerSum w hw]

/-- Witness for the amended C7 on the window [104, 105]. -/
theorem c7_init_horner_ascii_witness :
    rkhash_init [104,105] 2 =
      some ((hornerSum [104,105]) % PRIME, ((256:Int) ^ 2) % PRIME) ∧
    0 ≤ (hornerSum [104,105]) % PRIME ∧ (hornerSum [104,105]) % PRIME < PRIME :=
  c7_init_horner_ascii [104,105] (by decide) (by decide)

/-- C8: msub does not compute (a - b) mod PRIME on equal arguments: the
branch condition a > b sends a = b to the wrap-around branch, which
returns a + PRIME - b = PRIME instead of 0, a value not below PRIME. -/
theorem c8_msub_equal_inputs :
    msub 0 0 = 961748941 ∧ ((0:Int) - 0) % PRIME = 0 ∧
    ¬ (msub 0 0 < PRIME) := by
  decide

/-- C9: for pattern "x" and the empty document the loop bound
strlen(doc) - m underflows in size_t arithmetic, so instead of returning
(0, none) immediately the scan runs and reads past the end of the
document buffer (undefined behaviour, none); the naive scanner's int
arithmetic returns (0, none) on the same input. -/
theorem c9_underflow_scan :
    rk_substring_match [120] [] = none ∧
    naive_substring_match [120] [] = some (0, none) := by
  decide

/-- C10: on the empty pattern every start index in [0, len(doc)) passes
the hash check (the rolled hash stays 0, equal to the empty pattern's
hash) and the empty verification, so the count is len(doc) and the
first-match cell ends at len(doc) - 1 for a nonempty document. -/
theorem c10_empty_pattern (doc : List Nat) (hcs : CStr doc)
    (hn : doc.length < 2^64) :
    rk_substring_match [] doc =
      some (doc.length, if doc.length = 0 then none else some (doc.length - 1)) := by
  have hb : ∀ b ∈ doc, b < 256 := fun b hbm => (hcs b hbm).2
  show rkLoop [] doc 0 1 0 (loopBound doc.length 0) 0 0 0 none = _
  have hn2 : doc.length < 18446744073709551616 := by
    have h64n : (2:Nat)^64 = 18446744073709551616 := by norm_num
    omega
  have hlb : loopBound doc.length 0 = doc.length := by
    unfold loopBound
    have h64 : ((2:Int)^64) = 18446744073709551616 := by norm_num
    rw [h64, Int.emod_eq_of_lt (by omega) (by omega)]
    omega
  rw [hlb, rkLoop_empty doc hb doc.length 0 0 none (by omega)]
  simp only [Nat.zero_add]

/-- Witness for C10 on the document [97, 98]. -/
theorem c10_empty_pattern_witness :
    rk_substring_match [] [97,98] = some (2, some 1) := by
  have h := c10_empty_pattern [97,98]
    (by intro b hb; fin_cases hb <;> norm_num) (by norm_num)
  simpa using h
